import Mathlib

/-!
A shallow embedding of the link-decorator module (TipTap/ProseMirror plugin):
the URI scanner `iterateUris`, the decoration builder `getDecorations`, and
the plugin state transitions (`init` / `apply`).

Strings are modelled as `List Char`; positions are `Nat` offsets.
The regular expression
  `(^|\s|\()((https?:\/\/[\S]+)|((?<domain>[a-z][a-z0-9]*(\.[a-z0-9]+)+)[\S]*))`
with flags `gim` is embedded as an explicit deterministic matcher.  Because
nothing follows group 2 in the pattern, each greedy sub-match is maximal and no
backtracking can change the result, so each alternative is computed directly:
maximal character-class runs, alternatives tried in source order, and the
leftmost match starting at or after the current scan position wins.
The external predicate `isValidDomain` (imported from `lib/strings/url-helpers`,
an opaque collaborator) is a parameter throughout.
-/

/-- JS `\s` (whitespace class), by code point. -/
def isJsSpace (c : Char) : Bool :=
  decide ((9 ≤ c.toNat ∧ c.toNat ≤ 13) ∨ c.toNat = 32 ∨ c.toNat = 160 ∨ c.toNat = 5760 ∨
    (8192 ≤ c.toNat ∧ c.toNat ≤ 8202) ∨ c.toNat = 8232 ∨ c.toNat = 8233 ∨
    c.toNat = 8239 ∨ c.toNat = 8287 ∨ c.toNat = 12288 ∨ c.toNat = 65279)

/-- JS line terminators (what a multiline `^` may follow). -/
def isLineTerm (c : Char) : Bool :=
  decide (c.toNat = 10 ∨ c.toNat = 13 ∨ c.toNat = 8232 ∨ c.toNat = 8233)

/-- `[a-z]` under the `i` flag: any ASCII letter. -/
def isLetterI (c : Char) : Bool :=
  decide ((97 ≤ c.toNat ∧ c.toNat ≤ 122) ∨ (65 ≤ c.toNat ∧ c.toNat ≤ 90))

/-- `[a-z0-9]` under the `i` flag. -/
def isAlnumI (c : Char) : Bool :=
  isLetterI c || decide (48 ≤ c.toNat ∧ c.toNat ≤ 57)

/-- Case-insensitive comparison of an input character `c` against a lowercase
pattern letter `d` (ASCII case folding, as the `i` flag does here). -/
def lowerEq (c d : Char) : Bool :=
  decide (c.toNat = d.toNat ∨ (65 ≤ c.toNat ∧ c.toNat ≤ 90 ∧ c.toNat + 32 = d.toNat))

/-- Length of the maximal `[\S]*` run at the front of `l`. -/
def nonSpaceRun (l : List Char) : Nat :=
  (l.takeWhile (fun c => !isJsSpace c)).length

/-- Length of the maximal `[a-z0-9]*` (case-insensitive) run at the front of `l`. -/
def alnumRun (l : List Char) : Nat :=
  (l.takeWhile isAlnumI).length

/-- Matches `:\/\/[\S]+` at the front of `l`, returning the matched length. -/
def schemeTail (l : List Char) : Option Nat :=
  match l with
  | ':' :: '/' :: '/' :: r =>
    let n := nonSpaceRun r
    if 0 < n then some (3 + n) else none
  | _ => none

/-- Matches `https?:\/\/[\S]+` (case-insensitive) at the front of `l`,
returning the matched length.  The optional `s` is tried greedily first,
with backtracking to the no-`s` reading, exactly as the regex engine does. -/
def matchSchemeAlt (l : List Char) : Option Nat :=
  match l with
  | c1 :: c2 :: c3 :: c4 :: rest =>
    if lowerEq c1 'h' && lowerEq c2 't' && lowerEq c3 't' && lowerEq c4 'p' then
      match rest with
      | c5 :: rest2 =>
        if lowerEq c5 's' then
          match schemeTail rest2 with
          | some k => some (5 + k)
          | none =>
            match schemeTail rest with
            | some k => some (4 + k)
            | none => none
        else
          match schemeTail rest with
          | some k => some (4 + k)
          | none => none
      | [] => none
    else none
  | _ => none

/-- Matches `(\.[a-z0-9]+)+` (case-insensitive, greedy) at the front of `l`,
returning the matched length.  Each iteration consumes at least two characters,
so `fuel = l.length` (as passed by `matchDotGroups`) never runs out: the
invariant `fuel ≥ l.length` is preserved by every recursive call. -/
def dotGroupsAux : Nat → List Char → Option Nat
  | 0, _ => none
  | fuel + 1, l =>
    match l with
    | c :: r =>
      if c = '.' then
        let n := alnumRun r
        if 0 < n then
          match dotGroupsAux fuel (r.drop n) with
          | some m => some (1 + n + m)
          | none => some (1 + n)
        else none
      else none
    | [] => none

def matchDotGroups (l : List Char) : Option Nat :=
  dotGroupsAux l.length l

/-- Matches `(?<domain>[a-z][a-z0-9]*(\.[a-z0-9]+)+)[\S]*` (case-insensitive)
at the front of `l`, returning `(domain length, total length)`.  The greedy
alnum runs are maximal; backtracking them cannot help (the character after a
maximal run is not alnum, hence not the `.` the next piece requires), and
`[\S]*` always succeeds, so this direct computation is the regex result. -/
def matchDomainAlt (l : List Char) : Option (Nat × Nat) :=
  match l with
  | c :: r =>
    if isLetterI c then
      let n := alnumRun r
      match matchDotGroups (r.drop n) with
      | some m =>
        let dlen := 1 + n + m
        some (dlen, dlen + nonSpaceRun (l.drop dlen))
      | none => none
    else none
  | [] => none

/-- Result of matching group 2 of the pattern: the matched length and the
`domain` named capture (populated only by the bare-domain alternative). -/
structure G2Match where
  len : Nat
  domain : Option (List Char)

/-- Group 2 `((https?:\/\/[\S]+)|((?<domain>...)[\S]*))` at the front of `l`:
the scheme alternative is tried first, as alternation order dictates. -/
def matchG2 (l : List Char) : Option G2Match :=
  match matchSchemeAlt l with
  | some n => some ⟨n, none⟩
  | none =>
    match matchDomainAlt l with
    | some (d, n) => some ⟨n, some (l.take d)⟩
    | none => none

/-- Whether a multiline `^` matches at position `i` of `s`. -/
def caretOk (s : List Char) (i : Nat) : Bool :=
  i == 0 ||
    (match s[i - 1]? with
     | some c => isLineTerm c
     | none => false)

/-- One regex match: `index` is the start of the whole match (group 1),
`g2start`/`g2len` locate group 2 (= `match[2]`), `domain` the named capture. -/
structure MatchData where
  index : Nat
  g2start : Nat
  g2len : Nat
  domain : Option (List Char)
deriving DecidableEq

/-- Attempts the whole pattern at start position `i`: the group-1 alternatives
`^` (empty), `\s`, `\(` in that order, each followed by group 2. -/
def matchAt (s : List Char) (i : Nat) : Option MatchData :=
  match (if caretOk s i then matchG2 (s.drop i) else none) with
  | some g => some ⟨i, i, g.len, g.domain⟩
  | none =>
    match s[i]? with
    | some c =>
      if isJsSpace c || c == '(' then
        match matchG2 (s.drop (i + 1)) with
        | some g => some ⟨i, i + 1, g.len, g.domain⟩
        | none => none
      else none
    | none => none

/-- Leftmost-match search: try `matchAt` at `k`, `k+1`, ... as `re.exec` does
when scanning from `lastIndex`.  `fuel` counts the positions left to try. -/
def findMatchAux (s : List Char) : Nat → Nat → Option MatchData
  | 0, _ => none
  | fuel + 1, k =>
    match matchAt s k with
    | some m => some m
    | none => findMatchAux s fuel (k + 1)

/-- First match of the pattern at a start position `≥ i` (no whole match can
start at or beyond `s.length`, since group 2 needs at least one character). -/
def findMatchFrom (s : List Char) (i : Nat) : Option MatchData :=
  findMatchAux s (s.length - i) i

/-- `String.prototype.indexOf(pat, k)` : the least position `≥ k` where `pat`
occurs in `s` (`none` for JS's `-1`). -/
def indexOfAux (s pat : List Char) : Nat → Nat → Option Nat
  | 0, _ => none
  | fuel + 1, k =>
    if List.isPrefixOf pat (s.drop k) then some k else indexOfAux s pat fuel (k + 1)

def indexOfFrom (s pat : List Char) (i : Nat) : Option Nat :=
  indexOfAux s pat (s.length + 1 - i) i

/-- `uri.startsWith('http')` (case-sensitive, as in the source). -/
def startsWithHttp (u : List Char) : Bool :=
  List.isPrefixOf ['h', 't', 't', 'p'] u

/-- The characters of the `https://` prefix synthesized for bare domains. -/
def httpsScheme : List Char := ['h', 't', 't', 'p', 's', ':', '/', '/']

/-- `/[.,;!?]$/` character set. -/
def punctChar (c : Char) : Bool :=
  decide (c.toNat = 46 ∨ c.toNat = 44 ∨ c.toNat = 59 ∨ c.toNat = 33 ∨ c.toNat = 63)

/-- `/X$/.test u` for a single-character class: test on the last character. -/
def lastIs (u : List Char) (p : Char → Bool) : Bool :=
  match u.getLast? with
  | some c => p c
  | none => false

def isCloseParen (c : Char) : Bool := decide (c.toNat = 41)

/-- One candidate span as produced inside the scanner loop.  The source's
callback receives `(fromPos, toPos)`; `uri` is the resolved url value the loop
holds when it invokes the callback. -/
structure Candidate where
  fromPos : Nat
  toPos : Nat
  uri : List Char
deriving DecidableEq, Repr

/-- The loop body of `iterateUris` after the uri has been resolved to `uri0`:
  `let from = str.indexOf(match[2], match.index)`
  `let to = from + match[2].length + 1`
then the two trimming steps, each shrinking `uri`/`to` together. -/
def mkCand (s : List Char) (m : MatchData) (uri0 : List Char) : Candidate :=
  let m2 := (s.drop m.g2start).take m.g2len
  let fromP := (indexOfFrom s m2 m.index).getD 0
  let to0 := fromP + m.g2len + 1
  let uri1 := if lastIs uri0 punctChar then uri0.dropLast else uri0
  let to1 := if lastIs uri0 punctChar then to0 - 1 else to0
  let strip2 := lastIs uri1 isCloseParen && !(uri1.contains '(')
  let uri2 := if strip2 then uri1.dropLast else uri1
  let to2 := if strip2 then to1 - 1 else to1
  ⟨fromP, to2, uri2⟩

/-- The `while ((match = re.exec(str)))` loop.  After each match the engine's
`lastIndex` is the end of the match, where the next search resumes; `continue`
skips the candidate but keeps scanning from the same point.  `fuel` bounds the
number of loop iterations; every match is nonempty so the scan position
strictly increases and `str.length + 1` iterations always suffice. -/
def scanAux (s : List Char) (isValidDomain : List Char → Bool) :
    Nat → Nat → List Candidate
  | 0, _ => []
  | fuel + 1, pos =>
    match findMatchFrom s pos with
    | none => []
    | some m =>
      let m2 := (s.drop m.g2start).take m.g2len
      let next := m.g2start + m.g2len
      if startsWithHttp m2 then
        mkCand s m m2 :: scanAux s isValidDomain fuel next
      else
        match m.domain with
        | some d =>
          if isValidDomain d then
            mkCand s m (httpsScheme ++ m2) :: scanAux s isValidDomain fuel next
          else
            scanAux s isValidDomain fuel next
        | none => scanAux s isValidDomain fuel next

/-- `iterateUris(str, cb)`: the sequence of candidate spans passed to `cb`,
in order. -/
def iterateUris (isValidDomain : List Char → Bool) (str : List Char) :
    List Candidate :=
  scanAux str isValidDomain (str.length + 1) 0

/-! ### The decoration model -/

/-- A document node as `findChildren` sees it: its type name, its position in
the document, and its flattened text content. -/
structure Block where
  typeName : String
  pos : Nat
  textContent : List Char

/-- `Decoration.inline(from, to, {class})`. -/
structure Decoration where
  fromPos : Nat
  toPos : Nat
  styleClass : String
deriving DecidableEq, Repr

/-- `getDecorations(doc)`: one decoration per candidate span of each
paragraph block, at the block's position plus the block-relative offsets. -/
def getDecorations (isValidDomain : List Char → Bool) (doc : List Block) :
    List Decoration :=
  (doc.filter (fun b => b.typeName == "paragraph")).flatMap fun b =>
    (iterateUris isValidDomain b.textContent).map fun c =>
      ⟨b.pos + c.fromPos, b.pos + c.toPos, "autolink"⟩

/-- A document-change event.  `docChanged` and the new `doc` come from the
ProseMirror transaction; `mapping` is the transaction's position-translation
function.  Modelled from the spec: the translation maps a pre-change absolute
offset to its post-change offset, or reports it deleted (`none`) — the
`Mapping` class itself is library code, not part of this repository. -/
structure Transaction where
  docChanged : Bool
  doc : List Block
  mapping : Nat → Option Nat

/-- Modelled from the spec: `DecorationSet.map` (library code, not in this
repository) translates each decoration's `from`/`to` through the change's
position-translation function, keeps its style, and drops a decoration whose
anchor position was deleted. -/
def mapDecorations (f : Nat → Option Nat) (ds : List Decoration) :
    List Decoration :=
  ds.filterMap fun d =>
    match f d.fromPos, f d.toPos with
    | some a, some b => some ⟨a, b, d.styleClass⟩
    | _, _ => none

/-- The plugin's `state.apply`: rebuild from the new document whenever
`transaction.docChanged`, otherwise map the previous set through the
transaction's mapping. -/
def applyTransaction (isValidDomain : List Char → Bool) (tr : Transaction)
    (ds : List Decoration) : List Decoration :=
  if tr.docChanged then getDecorations isValidDomain tr.doc
  else mapDecorations tr.mapping ds

/-- The plugin's `state.init`: decorations of the freshly attached document. -/
def initDecorations (isValidDomain : List Char → Bool) (doc : List Block) :
    List Decoration :=
  getDecorations isValidDomain doc

/-- Flattened text content of a whole document. -/
def docTextContent (doc : List Block) : List Char :=
  (doc.map Block.textContent).flatten

/-- The spec's two boundary-trimming steps, stated from its words for
refinement comparison: first strip one trailing `. , ; ! ?`; then strip a
trailing `)` when the candidate contains no `(`; `to` shrinks with each strip. -/
def specBoundaryTrim (u : List Char) (t : Nat) : List Char × Nat :=
  let s1 : List Char × Nat :=
    if lastIs u punctChar then (u.dropLast, t - 1) else (u, t)
  if lastIs s1.1 isCloseParen && !(s1.1.contains '(') then
    (s1.1.dropLast, s1.2 - 1)
  else s1

/-! ### Character-class facts -/

theorem isLineTerm_space {c : Char} (h : isLineTerm c = true) : isJsSpace c = true := by
  simp only [isLineTerm, decide_eq_true_eq] at h
  simp only [isJsSpace, decide_eq_true_eq]
  omega

theorem isAlnumI_not_space {c : Char} (h : isAlnumI c = true) : isJsSpace c = false := by
  simp only [isAlnumI, isLetterI, Bool.or_eq_true, decide_eq_true_eq] at h
  simp only [isJsSpace, decide_eq_false_iff_not]
  omega

theorem isLetterI_not_space {c : Char} (h : isLetterI c = true) : isJsSpace c = false := by
  simp only [isLetterI, decide_eq_true_eq] at h
  simp only [isJsSpace, decide_eq_false_iff_not]
  omega

theorem isLetterI_toNat {c : Char} (h : isLetterI c = true) : c.toNat ≠ 40 := by
  simp only [isLetterI, decide_eq_true_eq] at h
  omega

theorem lowerEq_h_not_space {c : Char} (h : lowerEq c 'h' = true) : isJsSpace c = false := by
  simp only [lowerEq, decide_eq_true_eq, show ('h').toNat = 104 from rfl] at h
  simp only [isJsSpace, decide_eq_false_iff_not]
  omega

theorem lowerEq_h_toNat {c : Char} (h : lowerEq c 'h' = true) : c.toNat ≠ 40 := by
  simp only [lowerEq, decide_eq_true_eq, show ('h').toNat = 104 from rfl] at h
  omega

/-! ### Facts about character runs -/

theorem takeWhile_pred {p : Char → Bool} :
    ∀ (l : List Char) (j : Nat), j < (l.takeWhile p).length →
      ∃ c, l[j]? = some c ∧ p c = true := by
  intro l
  induction l with
  | nil => intro j h; simp [List.takeWhile] at h
  | cons a t ih =>
    intro j h
    by_cases hp : p a
    · rw [List.takeWhile_cons_of_pos hp] at h
      cases j with
      | zero => exact ⟨a, by simp, hp⟩
      | succ j =>
        simp only [List.length_cons, Nat.succ_lt_succ_iff] at h
        obtain ⟨c, hc, hpc⟩ := ih j h
        exact ⟨c, by simpa using hc, hpc⟩
    · rw [List.takeWhile_cons_of_neg hp] at h
      simp at h

theorem takeWhile_len_le (p : Char → Bool) (l : List Char) :
    (l.takeWhile p).length ≤ l.length :=
  (List.takeWhile_sublist p).length_le

theorem nonSpaceRun_le (l : List Char) : nonSpaceRun l ≤ l.length :=
  takeWhile_len_le _ l

theorem alnumRun_le (l : List Char) : alnumRun l ≤ l.length :=
  takeWhile_len_le _ l

theorem nonSpaceRun_pred {l : List Char} {j : Nat} (h : j < nonSpaceRun l) :
    ∃ c, l[j]? = some c ∧ isJsSpace c = false := by
  obtain ⟨c, hc, hpc⟩ := takeWhile_pred l j h
  exact ⟨c, hc, by simpa using hpc⟩

theorem alnumRun_pred {l : List Char} {j : Nat} (h : j < alnumRun l) :
    ∃ c, l[j]? = some c ∧ isAlnumI c = true :=
  takeWhile_pred l j h

/-! ### Inversion facts for the matchers -/

theorem getd_cons3 (a b c : Char) (r : List Char) (j : Nat) :
    (a :: b :: c :: r)[j + 3]? = r[j]? := by
  rw [show j + 3 = 3 + j by omega, ← List.getElem?_drop]
  simp

theorem getd_cons4 (a b c d : Char) (r : List Char) (j : Nat) :
    (a :: b :: c :: d :: r)[j + 4]? = r[j]? := by
  rw [show j + 4 = 4 + j by omega, ← List.getElem?_drop]
  simp

theorem getd_cons5 (a b c d e : Char) (r : List Char) (j : Nat) :
    (a :: b :: c :: d :: e :: r)[j + 5]? = r[j]? := by
  rw [show j + 5 = 5 + j by omega, ← List.getElem?_drop]
  simp

theorem schemeTail_facts {l : List Char} {k : Nat} (h : schemeTail l = some k) :
    4 ≤ k ∧ k ≤ l.length ∧ ∃ c, l[k - 1]? = some c ∧ isJsSpace c = false := by
  unfold schemeTail at h
  split at h
  case _ r =>
    simp only at h
    split at h
    case isTrue hn =>
      obtain rfl : 3 + nonSpaceRun r = k := by injection h
      have hle := nonSpaceRun_le r
      obtain ⟨c, hc, hcs⟩ := nonSpaceRun_pred (show nonSpaceRun r - 1 < nonSpaceRun r by omega)
      refine ⟨by omega, by simp only [List.length_cons]; omega, c, ?_, hcs⟩
      have he : 3 + nonSpaceRun r - 1 = (nonSpaceRun r - 1) + 3 := by omega
      rw [he, getd_cons3]
      exact hc
    case isFalse hn => exact absurd h (by simp)
  case _ => exact absurd h (by simp)

theorem matchSchemeAlt_facts {l : List Char} {n : Nat} (h : matchSchemeAlt l = some n) :
    8 ≤ n ∧ n ≤ l.length ∧ (∃ c, l[0]? = some c ∧ lowerEq c 'h' = true) ∧
      ∃ c, l[n - 1]? = some c ∧ isJsSpace c = false := by
  unfold matchSchemeAlt at h
  split at h
  case _ c1 c2 c3 c4 rest =>
    split at h
    case isTrue hcond =>
      simp only [Bool.and_eq_true] at hcond
      obtain ⟨⟨⟨h1, _⟩, _⟩, _⟩ := hcond
      have hhead : ∃ c, (c1 :: c2 :: c3 :: c4 :: rest)[0]? = some c ∧ lowerEq c 'h' = true :=
        ⟨c1, by simp, h1⟩
      split at h
      case _ c5 rest2 =>
        split at h
        case isTrue hs =>
          split at h
          case _ k hk =>
            obtain rfl : 5 + k = n := by injection h
            obtain ⟨hk4, hklen, c, hc, hcs⟩ := schemeTail_facts hk
            refine ⟨by omega, by simp only [List.length_cons]; omega, hhead, c, ?_, hcs⟩
            have he : 5 + k - 1 = (k - 1) + 5 := by omega
            rw [he, getd_cons5]
            exact hc
          case _ hk =>
            split at h
            case _ k hk2 =>
              obtain rfl : 4 + k = n := by injection h
              obtain ⟨hk4, hklen, c, hc, hcs⟩ := schemeTail_facts hk2
              refine ⟨by omega, by simp only [List.length_cons] at hklen ⊢; omega, hhead, c, ?_, hcs⟩
              have he : 4 + k - 1 = (k - 1) + 4 := by omega
              rw [he, getd_cons4]
              exact hc
            case _ => exact absurd h (by simp)
        case isFalse hs =>
          split at h
          case _ k hk2 =>
            obtain rfl : 4 + k = n := by injection h
            obtain ⟨hk4, hklen, c, hc, hcs⟩ := schemeTail_facts hk2
            refine ⟨by omega, by simp only [List.length_cons] at hklen ⊢; omega, hhead, c, ?_, hcs⟩
            have he : 4 + k - 1 = (k - 1) + 4 := by omega
            rw [he, getd_cons4]
            exact hc
          case _ => exact absurd h (by simp)
      case _ => exact absurd h (by simp)
    case isFalse => exact absurd h (by simp)
  case _ => exact absurd h (by simp)

theorem dotGroupsAux_facts :
    ∀ (fuel : Nat) (l : List Char) (m : Nat), dotGroupsAux fuel l = some m →
      2 ≤ m ∧ m ≤ l.length ∧ ∃ c, l[m - 1]? = some c ∧ isAlnumI c = true := by
  intro fuel
  induction fuel with
  | zero => intro l m h; simp [dotGroupsAux] at h
  | succ fuel ih =>
    intro l m h
    cases l with
    | nil => simp [dotGroupsAux] at h
    | cons a r =>
      simp only [dotGroupsAux] at h
      split at h
      case isTrue ha =>
        subst ha
        split at h
        case isTrue hn =>
          have hrle := alnumRun_le r
          split at h
          case _ m2 hm2 =>
            obtain rfl : 1 + alnumRun r + m2 = m := by injection h
            obtain ⟨h2, hlen, c, hc, hca⟩ := ih (r.drop (alnumRun r)) m2 hm2
            rw [List.length_drop] at hlen
            refine ⟨by omega, by simp only [List.length_cons]; omega, c, ?_, hca⟩
            rw [List.getElem?_drop] at hc
            have he : 1 + alnumRun r + m2 - 1 = (alnumRun r + (m2 - 1)) + 1 := by omega
            rw [he, List.getElem?_cons_succ]
            rw [show alnumRun r + (m2 - 1) = alnumRun r + (m2 - 1) from rfl]
            exact hc
          case _ hm2 =>
            obtain rfl : 1 + alnumRun r = m := by injection h
            obtain ⟨c, hc, hca⟩ := alnumRun_pred (show alnumRun r - 1 < alnumRun r by omega)
            refine ⟨by omega, by simp only [List.length_cons]; omega, c, ?_, hca⟩
            have he : 1 + alnumRun r - 1 = (alnumRun r - 1) + 1 := by omega
            rw [he, List.getElem?_cons_succ]
            exact hc
        case isFalse => exact absurd h (by simp)
      case isFalse => exact absurd h (by simp)

theorem matchDomainAlt_facts {l : List Char} {d n : Nat}
    (h : matchDomainAlt l = some (d, n)) :
    3 ≤ d ∧ d ≤ n ∧ n ≤ l.length ∧ (∃ c, l[0]? = some c ∧ isLetterI c = true) ∧
      ∃ c, l[n - 1]? = some c ∧ isJsSpace c = false := by
  unfold matchDomainAlt at h
  split at h
  case _ c r =>
    split at h
    case isTrue hc =>
      simp only at h
      split at h
      case _ m hm =>
        unfold matchDotGroups at hm
        simp only [Option.some_inj, Prod.mk.injEq] at h
        obtain ⟨hd, hn⟩ := h
        obtain ⟨h2, hlen, ch, hch, hcha⟩ := dotGroupsAux_facts _ _ _ hm
        rw [List.length_drop] at hlen
        have hrle := alnumRun_le r
        have hnsle := nonSpaceRun_le ((c :: r).drop (1 + alnumRun r + m))
        rw [List.length_drop, List.length_cons] at hnsle
        subst hd
        refine ⟨by omega, by omega, by simp only [List.length_cons]; omega,
          ⟨c, by simp, hc⟩, ?_⟩
        rcases Nat.eq_zero_or_pos (nonSpaceRun ((c :: r).drop (1 + alnumRun r + m))) with hb | hb
        · rw [hb, Nat.add_zero] at hn
          subst hn
          refine ⟨ch, ?_, isAlnumI_not_space hcha⟩
          rw [List.getElem?_drop] at hch
          have he : 1 + alnumRun r + m - 1 = (alnumRun r + (m - 1)) + 1 := by omega
          rw [he, List.getElem?_cons_succ]
          exact hch
        · obtain ⟨ch2, hch2, hch2s⟩ := nonSpaceRun_pred
            (show nonSpaceRun ((c :: r).drop (1 + alnumRun r + m)) - 1 <
              nonSpaceRun ((c :: r).drop (1 + alnumRun r + m)) by omega)
          refine ⟨ch2, ?_, hch2s⟩
          rw [List.getElem?_drop] at hch2
          rw [show n - 1 = (1 + alnumRun r + m) +
            (nonSpaceRun ((c :: r).drop (1 + alnumRun r + m)) - 1) by omega]
          exact hch2
      case _ => exact absurd h (by simp)
    case isFalse => exact absurd h (by simp)
  case _ => exact absurd h (by simp)

theorem matchG2_facts {l : List Char} {g : G2Match} (h : matchG2 l = some g) :
    3 ≤ g.len ∧ g.len ≤ l.length ∧
      (∃ c, l[0]? = some c ∧ isJsSpace c = false ∧ c.toNat ≠ 40) ∧
      ∃ c, l[g.len - 1]? = some c ∧ isJsSpace c = false := by
  obtain ⟨glen, gdom⟩ := g
  unfold matchG2 at h
  split at h
  case _ n hn =>
    simp only [Option.some_inj, G2Match.mk.injEq] at h
    obtain ⟨rfl, -⟩ := h
    obtain ⟨h8, hlen, ⟨c0, hc0, hc0h⟩, hlast⟩ := matchSchemeAlt_facts hn
    exact ⟨by dsimp only; omega, hlen, ⟨c0, hc0, lowerEq_h_not_space hc0h, lowerEq_h_toNat hc0h⟩, hlast⟩
  case _ hn =>
    split at h
    case _ d n hd =>
      simp only [Option.some_inj, G2Match.mk.injEq] at h
      obtain ⟨rfl, -⟩ := h
      obtain ⟨h3, hdn, hlen, ⟨c0, hc0, hc0l⟩, hlast⟩ := matchDomainAlt_facts hd
      exact ⟨by dsimp only; omega, hlen, ⟨c0, hc0, isLetterI_not_space hc0l, isLetterI_toNat hc0l⟩, hlast⟩
    case _ => exact absurd h (by simp)

/-! ### Facts about whole-pattern matches -/

theorem matchAt_facts {s : List Char} {i : Nat} {m : MatchData} (h : matchAt s i = some m) :
    m.index = i ∧ matchG2 (s.drop m.g2start) = some ⟨m.g2len, m.domain⟩ ∧
      ((m.g2start = i ∧ caretOk s i = true) ∨
        (m.g2start = i + 1 ∧ ∃ c, s[i]? = some c ∧ (isJsSpace c || c == '(') = true)) := by
  obtain ⟨mi, mg, ml, md⟩ := m
  unfold matchAt at h
  split at h
  case _ g hg =>
    simp only [Option.some_inj, MatchData.mk.injEq] at h
    obtain ⟨rfl, rfl, rfl, rfl⟩ := h
    split at hg
    case isTrue hcar => exact ⟨rfl, hg, Or.inl ⟨rfl, hcar⟩⟩
    case isFalse => exact absurd hg (by simp)
  case _ hg =>
    split at h
    case _ c hci =>
      split at h
      case isTrue hcond =>
        split at h
        case _ g hg2 =>
          simp only [Option.some_inj, MatchData.mk.injEq] at h
          obtain ⟨rfl, rfl, rfl, rfl⟩ := h
          exact ⟨rfl, hg2, Or.inr ⟨rfl, c, hci, hcond⟩⟩
        case _ => exact absurd h (by simp)
      case isFalse => exact absurd h (by simp)
    case _ => exact absurd h (by simp)

theorem matchAt_bounds {s : List Char} {i : Nat} {m : MatchData}
    (h : matchAt s i = some m) :
    m.index = i ∧ i ≤ m.g2start ∧ m.g2start ≤ i + 1 ∧ 3 ≤ m.g2len ∧
      m.g2start + m.g2len ≤ s.length ∧
      (∃ c, s[m.g2start + m.g2len - 1]? = some c ∧ isJsSpace c = false) ∧
      ∃ c, s[m.g2start]? = some c ∧ isJsSpace c = false ∧ c.toNat ≠ 40 := by
  obtain ⟨hidx, hg2, hshape⟩ := matchAt_facts h
  obtain ⟨h3, hlen, ⟨c0, hc0, hc0s, hc0p⟩, ⟨cl, hcl, hcls⟩⟩ := matchG2_facts hg2
  dsimp only at h3 hlen
  rw [List.length_drop] at hlen
  have hstart : i ≤ m.g2start ∧ m.g2start ≤ i + 1 := by
    rcases hshape with ⟨he, -⟩ | ⟨he, -⟩ <;> omega
  have hc0' : s[m.g2start]? = some c0 := by
    have := hc0
    rw [List.getElem?_drop, Nat.add_zero] at this
    exact this
  have hg2s_lt : m.g2start < s.length := by
    have : c0 ∈ s[m.g2start]?.toList := by rw [hc0']; simp
    by_contra hx
    rw [List.getElem?_eq_none (by omega)] at hc0'
    exact absurd hc0' (by simp)
  refine ⟨hidx, hstart.1, hstart.2, h3, by omega, ⟨cl, ?_, hcls⟩, c0, hc0', hc0s, hc0p⟩
  rw [List.getElem?_drop] at hcl
  rw [show m.g2start + m.g2len - 1 = m.g2start + (m.g2len - 1) by omega]
  exact hcl

theorem findMatchAux_facts {s : List Char} :
    ∀ (fuel k : Nat) (m : MatchData), findMatchAux s fuel k = some m →
      ∃ i, k ≤ i ∧ matchAt s i = some m := by
  intro fuel
  induction fuel with
  | zero => intro k m h; simp [findMatchAux] at h
  | succ fuel ih =>
    intro k m h
    unfold findMatchAux at h
    split at h
    case _ m2 hm2 =>
      obtain rfl : m2 = m := by injection h
      exact ⟨k, Nat.le_refl k, hm2⟩
    case _ =>
      obtain ⟨i, hi, hmi⟩ := ih (k + 1) m h
      exact ⟨i, by omega, hmi⟩

theorem findMatchFrom_facts {s : List Char} {pos : Nat} {m : MatchData}
    (h : findMatchFrom s pos = some m) :
    ∃ i, pos ≤ i ∧ matchAt s i = some m :=
  findMatchAux_facts _ _ _ h

/-! ### The `indexOf` recovery of the group-2 start -/

theorem take_isPrefixOf (l : List Char) (n : Nat) :
    List.isPrefixOf (l.take n) l = true := by
  rw [List.isPrefixOf_iff_prefix]
  exact List.take_prefix n l

theorem prefix_getElem? {pat l : List Char} (hp : List.isPrefixOf pat l = true)
    {j : Nat} (hj : j < pat.length) : l[j]? = pat[j]? := by
  rw [List.isPrefixOf_iff_prefix] at hp
  obtain ⟨t, rfl⟩ := hp
  rw [List.getElem?_append]
  simp [hj]

theorem indexOf_g2start {s : List Char} {i : Nat} {m : MatchData}
    (h : matchAt s i = some m) :
    indexOfFrom s ((s.drop m.g2start).take m.g2len) m.index = some m.g2start := by
  obtain ⟨hidx, hg2, hshape⟩ := matchAt_facts h
  obtain ⟨-, hile, hlei, h3, hsum, -, c0, hc0, hc0s, hc0p⟩ := matchAt_bounds h
  have hslt : m.g2start < s.length := by omega
  have hpre : List.isPrefixOf ((s.drop m.g2start).take m.g2len) (s.drop m.g2start) = true :=
    take_isPrefixOf _ _
  have hpat0 : ((s.drop m.g2start).take m.g2len)[0]? = some c0 := by
    rw [List.getElem?_take_of_lt (by omega), List.getElem?_drop, Nat.add_zero]
    exact hc0
  rw [hidx]
  unfold indexOfFrom
  rcases hshape with ⟨he, -⟩ | ⟨he, c, hci, hcond⟩
  · rw [show s.length + 1 - i = (s.length - i) + 1 by omega]
    unfold indexOfAux
    rw [he] at hpre ⊢
    rw [if_pos hpre]
  · rw [show s.length + 1 - i = ((s.length - i - 1) + 1) + 1 by omega]
    unfold indexOfAux
    have hnot : ¬ (List.isPrefixOf ((s.drop m.g2start).take m.g2len) (s.drop i) = true) := by
      intro hx
      have h0 : (s.drop i)[0]? = some c0 := by
        rw [prefix_getElem? hx (by simp only [List.length_take, List.length_drop]; omega)]
        exact hpat0
      rw [List.getElem?_drop, Nat.add_zero] at h0
      rw [hci] at h0
      obtain rfl : c = c0 := by injection h0
      rcases Bool.or_eq_true_iff.mp hcond with hsp | hpar
      · rw [hsp] at hc0s; exact absurd hc0s (by simp)
      · have hcp : c = '(' := by simpa using hpar
        apply hc0p
        rw [hcp]
        rfl
    rw [if_neg hnot]
    unfold indexOfAux
    rw [← he]
    rw [if_pos hpre]

/-! ### Bounds on an emitted candidate -/

theorem mkCand_fromPos (s : List Char) (m : MatchData) (u : List Char) :
    (mkCand s m u).fromPos =
      (indexOfFrom s ((s.drop m.g2start).take m.g2len) m.index).getD 0 := rfl

theorem mkCand_toPos (s : List Char) (m : MatchData) (u : List Char) :
    ∃ t, t ≤ 2 ∧ (mkCand s m u).toPos = (mkCand s m u).fromPos + m.g2len + 1 - t := by
  dsimp only [mkCand]
  split
  · split
    · exact ⟨2, by omega, by omega⟩
    · exact ⟨1, by omega, by omega⟩
  · split
    · exact ⟨1, by omega, by omega⟩
    · exact ⟨0, by omega, by omega⟩

theorem emitted_bounds {s : List Char} {i : Nat} {m : MatchData}
    (h : matchAt s i = some m) (u : List Char) :
    (mkCand s m u).fromPos = m.g2start ∧
      m.g2start + m.g2len - 1 ≤ (mkCand s m u).toPos ∧
      (mkCand s m u).toPos ≤ m.g2start + m.g2len + 1 := by
  have hf : (mkCand s m u).fromPos = m.g2start := by
    rw [mkCand_fromPos, indexOf_g2start h]
    rfl
  obtain ⟨t, ht, hto⟩ := mkCand_toPos s m u
  obtain ⟨-, -, -, h3, -, -, -⟩ := matchAt_bounds h
  rw [hf] at hto
  exact ⟨hf, by omega, by omega⟩

/-! ### Facts about the scanning loop -/

theorem scanAux_mem {s : List Char} {v : List Char → Bool} :
    ∀ (fuel pos : Nat) (c : Candidate), c ∈ scanAux s v fuel pos →
      ∃ i m, pos ≤ i ∧ matchAt s i = some m ∧
        ((startsWithHttp ((s.drop m.g2start).take m.g2len) = true ∧
            c = mkCand s m ((s.drop m.g2start).take m.g2len)) ∨
         (startsWithHttp ((s.drop m.g2start).take m.g2len) = false ∧
            ∃ d, m.domain = some d ∧ v d = true ∧
              c = mkCand s m (httpsScheme ++ (s.drop m.g2start).take m.g2len))) := by
  intro fuel
  induction fuel with
  | zero => intro pos c h; simp [scanAux] at h
  | succ fuel ih =>
    intro pos c h
    unfold scanAux at h
    split at h
    case _ => simp at h
    case _ m0 hfm =>
      obtain ⟨i0, hi0, hm0⟩ := findMatchFrom_facts hfm
      obtain ⟨-, hile, -, h3, -, -, -⟩ := matchAt_bounds hm0
      have hposnext : pos ≤ m0.g2start + m0.g2len := by omega
      dsimp only at h
      split at h
      case isTrue hsw =>
        rcases List.mem_cons.mp h with rfl | htail
        · exact ⟨i0, m0, hi0, hm0, Or.inl ⟨hsw, rfl⟩⟩
        · obtain ⟨i, m, hi, hm, hrest⟩ := ih _ c htail
          exact ⟨i, m, by omega, hm, hrest⟩
      case isFalse hsw =>
        split at h
        case _ d hd =>
          split at h
          case isTrue hv =>
            rcases List.mem_cons.mp h with rfl | htail
            · exact ⟨i0, m0, hi0, hm0,
                Or.inr ⟨by simpa using hsw, d, hd, hv, rfl⟩⟩
            · obtain ⟨i, m, hi, hm, hrest⟩ := ih _ c htail
              exact ⟨i, m, by omega, hm, hrest⟩
          case isFalse =>
            obtain ⟨i, m, hi, hm, hrest⟩ := ih _ c h
            exact ⟨i, m, by omega, hm, hrest⟩
        case _ =>
          obtain ⟨i, m, hi, hm, hrest⟩ := ih _ c h
          exact ⟨i, m, by omega, hm, hrest⟩

theorem caretOk_prev {s : List Char} {pos : Nat} (hpos : 0 < pos)
    (hprev : ∀ ch, s[pos - 1]? = some ch → isJsSpace ch = false) :
    caretOk s pos = false := by
  unfold caretOk
  rw [Bool.or_eq_false_iff]
  refine ⟨by simpa using Nat.pos_iff_ne_zero.mp hpos, ?_⟩
  split
  case _ ch hch =>
    rw [Bool.eq_false_iff]
    intro hlt
    have hsp := hprev ch hch
    rw [isLineTerm_space hlt] at hsp
    exact absurd hsp (by simp)
  case _ => rfl

theorem match_g2start_lb {s : List Char} {pos i : Nat} {m : MatchData}
    (hle : pos ≤ i) (h : matchAt s i = some m) (hpos : 0 < pos)
    (hprev : ∀ ch, s[pos - 1]? = some ch → isJsSpace ch = false) :
    pos + 1 ≤ m.g2start := by
  obtain ⟨-, -, hshape⟩ := matchAt_facts h
  rcases Nat.lt_or_ge pos i with hlt | hge
  · obtain ⟨-, hile, -, -, -, -, -⟩ := matchAt_bounds h
    omega
  · have hip : i = pos := by omega
    subst hip
    rcases hshape with ⟨he, hcar⟩ | ⟨he, -⟩
    · rw [caretOk_prev hpos hprev] at hcar
      exact absurd hcar (by simp)
    · omega

theorem scanAux_fromPos_lb {s : List Char} {v : List Char → Bool}
    (fuel pos : Nat) (hpos : 0 < pos)
    (hprev : ∀ ch, s[pos - 1]? = some ch → isJsSpace ch = false) :
    ∀ c ∈ scanAux s v fuel pos, pos + 1 ≤ c.fromPos := by
  intro c hc
  obtain ⟨i, m, hi, hm, hrest⟩ := scanAux_mem fuel pos c hc
  have hlb := match_g2start_lb hi hm hpos hprev
  rcases hrest with ⟨-, rfl⟩ | ⟨-, d, -, -, rfl⟩ <;>
    rw [(emitted_bounds hm _).1] <;> omega

theorem scanAux_pairwise {s : List Char} {v : List Char → Bool} :
    ∀ (fuel pos : Nat),
      List.Pairwise (fun a b => a.fromPos < b.fromPos ∧ a.toPos ≤ b.fromPos)
        (scanAux s v fuel pos) := by
  intro fuel
  induction fuel with
  | zero => intro pos; simp [scanAux]
  | succ fuel ih =>
    intro pos
    unfold scanAux
    split
    case _ => simp
    case _ m0 hfm =>
      obtain ⟨i0, hi0, hm0⟩ := findMatchFrom_facts hfm
      obtain ⟨-, hile, -, h3, hsum, ⟨cl, hcl, hcls⟩, -⟩ := matchAt_bounds hm0
      have hheadR : ∀ (u : List Char) (b : Candidate),
          b ∈ scanAux s v fuel (m0.g2start + m0.g2len) →
          (mkCand s m0 u).fromPos < b.fromPos ∧ (mkCand s m0 u).toPos ≤ b.fromPos := by
        intro u b hb
        have hblb := scanAux_fromPos_lb fuel (m0.g2start + m0.g2len) (by omega)
          (fun ch hch => by
            rw [show m0.g2start + m0.g2len - 1 = m0.g2start + m0.g2len - 1 from rfl] at hch
            rw [hcl] at hch
            obtain rfl : cl = ch := by injection hch
            exact hcls) b hb
        obtain ⟨hf, hlo, hhi⟩ := emitted_bounds hm0 u
        constructor <;> omega
      dsimp only
      split
      case isTrue => exact List.pairwise_cons.mpr ⟨hheadR _, ih _⟩
      case isFalse =>
        split
        case _ d hd =>
          split
          case isTrue => exact List.pairwise_cons.mpr ⟨hheadR _, ih _⟩
          case isFalse => exact ih _
        case _ => exact ih _

theorem scanAux_length_le {s : List Char} {v : List Char → Bool} :
    ∀ (fuel pos : Nat), (scanAux s v fuel pos).length ≤ s.length - pos := by
  intro fuel
  induction fuel with
  | zero => intro pos; simp [scanAux]
  | succ fuel ih =>
    intro pos
    unfold scanAux
    split
    case _ => simp
    case _ m0 hfm =>
      obtain ⟨i0, hi0, hm0⟩ := findMatchFrom_facts hfm
      obtain ⟨-, hile, -, h3, hsum, -, -⟩ := matchAt_bounds hm0
      have hnext := ih (m0.g2start + m0.g2len)
      dsimp only
      split
      case isTrue => simp only [List.length_cons]; omega
      case isFalse =>
        split
        case _ d hd =>
          split
          case isTrue => simp only [List.length_cons]; omega
          case isFalse => omega
        case _ => omega

/-! ### The trimming steps agree with the spec's description -/

theorem mkCand_trim (s : List Char) (m : MatchData) (u : List Char) :
    ((mkCand s m u).uri, (mkCand s m u).toPos) =
      specBoundaryTrim u ((mkCand s m u).fromPos + m.g2len + 1) := by
  dsimp only [mkCand, specBoundaryTrim]
  split <;> dsimp only <;> split <;> rfl

theorem caretOk_cases {s : List Char} {i : Nat} (h : caretOk s i = true) :
    i = 0 ∨ ∃ ch, s[i - 1]? = some ch ∧ isLineTerm ch = true := by
  unfold caretOk at h
  rcases Bool.or_eq_true_iff.mp h with h0 | hm
  · left
    simpa using h0
  · right
    split at hm
    case _ ch hch => exact ⟨ch, hch, hm⟩
    case _ => exact absurd hm (by simp)

/-! ### The claims -/

/-- C1 (counterexample): the scanner emits a span whose `to` exceeds the
length of the scanned text: on `"http://a.bc"` (length 11) it emits the span
`(0, 12)`, because the source computes `to = from + match[2].length + 1`. -/
theorem claim1_counterexample :
    ∃ c ∈ iterateUris (fun _ => false) "http://a.bc".toList,
      "http://a.bc".toList.length < c.toPos := by decide

/-- C1 (amended): for every emitted span, `0 ≤ from < to ≤ length + 1`: the
block-relative end offset can exceed the length of the scanned text, but by
at most one. -/
theorem claim1_amended_span_bounds :
    ∀ (isValidDomain : List Char → Bool) (str : List Char) (c : Candidate),
      c ∈ iterateUris isValidDomain str →
      c.fromPos < c.toPos ∧ c.toPos ≤ str.length + 1 := by
  intro v s c hc
  obtain ⟨i, m, hi, hm, hrest⟩ := scanAux_mem _ _ c hc
  obtain ⟨-, -, -, h3, hsum, -, -⟩ := matchAt_bounds hm
  have key : ∀ u : List Char, (mkCand s m u).fromPos < (mkCand s m u).toPos ∧
      (mkCand s m u).toPos ≤ s.length + 1 := by
    intro u
    obtain ⟨hf, hlo, hhi⟩ := emitted_bounds hm u
    constructor <;> omega
  rcases hrest with ⟨-, rfl⟩ | ⟨-, d, -, -, rfl⟩
  · exact key _
  · exact key _

/-- Witness for C1's amended theorem at a concrete input. -/
theorem claim1_witness :
    (⟨0, 12, "http://a.bc".toList⟩ : Candidate).fromPos <
        (⟨0, 12, "http://a.bc".toList⟩ : Candidate).toPos ∧
      (⟨0, 12, "http://a.bc".toList⟩ : Candidate).toPos ≤
        "http://a.bc".toList.length + 1 :=
  claim1_amended_span_bounds (fun _ => false) "http://a.bc".toList _ (by decide)

/-- C3: the spans emitted by the scanner are in strictly increasing order of
`from`, and each span ends at or before the next begins, so no two emitted
`[from, to)` ranges overlap. -/
theorem claim3_no_overlap :
    ∀ (isValidDomain : List Char → Bool) (str : List Char),
      List.Pairwise (fun a b => a.fromPos < b.fromPos ∧ a.toPos ≤ b.fromPos)
        (iterateUris isValidDomain str) :=
  fun _ _ => scanAux_pairwise _ _

/-- C7: every emitted span satisfies `from < to` even after both trimming
steps, and every raw match is at least 3 characters long, so the two
single-character trims can never produce an empty span. -/
theorem claim7_nonempty_spans :
    ∀ (isValidDomain : List Char → Bool) (str : List Char),
      (∀ c ∈ iterateUris isValidDomain str, c.fromPos < c.toPos) ∧
      ∀ i m, matchAt str i = some m → 3 ≤ m.g2len := by
  intro v s
  constructor
  · intro c hc
    obtain ⟨i, m, hi, hm, hrest⟩ := scanAux_mem _ _ c hc
    obtain ⟨-, -, -, h3, hsum, -, -⟩ := matchAt_bounds hm
    have key : ∀ u : List Char, (mkCand s m u).fromPos < (mkCand s m u).toPos := by
      intro u
      obtain ⟨hf, hlo, hhi⟩ := emitted_bounds hm u
      omega
    rcases hrest with ⟨-, rfl⟩ | ⟨-, d, -, -, rfl⟩
    · exact key _
    · exact key _
  · intro i m hm
    exact (matchAt_bounds hm).2.2.2.1

/-- Witness for C7 at a concrete input. -/
theorem claim7_witness :
    (⟨0, 12, "http://a.bc".toList⟩ : Candidate).fromPos <
      (⟨0, 12, "http://a.bc".toList⟩ : Candidate).toPos :=
  (claim7_nonempty_spans (fun _ => false) "http://a.bc".toList).1 _ (by decide)

/-- C8: every emitted candidate starts either at the beginning of the string
or right after a whitespace character or an opening parenthesis; a link-shaped
substring glued to other non-whitespace text is never emitted. -/
theorem claim8_preceded_by_boundary :
    ∀ (isValidDomain : List Char → Bool) (str : List Char) (c : Candidate),
      c ∈ iterateUris isValidDomain str →
      c.fromPos = 0 ∨ ∃ ch, str[c.fromPos - 1]? = some ch ∧
        (isJsSpace ch = true ∨ ch = '(') := by
  intro v s c hc
  obtain ⟨i, m, hi, hm, hrest⟩ := scanAux_mem _ _ c hc
  have hfrom : c.fromPos = m.g2start := by
    rcases hrest with ⟨-, rfl⟩ | ⟨-, d, -, -, rfl⟩
    · exact (emitted_bounds hm _).1
    · exact (emitted_bounds hm _).1
  obtain ⟨-, -, hshape⟩ := matchAt_facts hm
  rcases hshape with ⟨he, hcar⟩ | ⟨he, ch, hch, hcond⟩
  · rcases caretOk_cases hcar with rfl | ⟨ch, hch, hterm⟩
    · left
      omega
    · right
      exact ⟨ch, by rw [hfrom, he]; exact hch, Or.inl (isLineTerm_space hterm)⟩
  · right
    refine ⟨ch, by rw [hfrom, he]; simpa using hch, ?_⟩
    rcases Bool.or_eq_true_iff.mp hcond with hsp | hpar
    · exact Or.inl hsp
    · exact Or.inr (by simpa using hpar)

/-- Witness for C8 at a concrete input. -/
theorem claim8_witness :
    (⟨2, 14, "http://a.bc".toList⟩ : Candidate).fromPos = 0 ∨
      ∃ ch, ("x http://a.bc".toList)[(⟨2, 14, "http://a.bc".toList⟩ : Candidate).fromPos - 1]? =
        some ch ∧ (isJsSpace ch = true ∨ ch = '(') :=
  claim8_preceded_by_boundary (fun _ => false) "x http://a.bc".toList _ (by decide)

/-- C10: the scan terminates: every match consumes at least three characters
of matched text, the scan position strictly increases across an iteration
(also on a skipped match), and the number of emitted candidates is bounded by
the input length. -/
theorem claim10_termination :
    ∀ (isValidDomain : List Char → Bool) (str : List Char),
      (∀ pos m, findMatchFrom str pos = some m →
        3 ≤ m.g2len ∧ pos + 3 ≤ m.g2start + m.g2len ∧
          m.g2start + m.g2len ≤ str.length) ∧
      (iterateUris isValidDomain str).length ≤ str.length := by
  intro v s
  constructor
  · intro pos m h
    obtain ⟨i, hi, hm⟩ := findMatchFrom_facts h
    obtain ⟨-, hile, -, h3, hsum, -, -⟩ := matchAt_bounds hm
    exact ⟨h3, by omega, hsum⟩
  · have hb := scanAux_length_le (s := s) (v := v) (s.length + 1) 0
    simpa [iterateUris] using hb

/-- Witness for C10 at a concrete input. -/
theorem claim10_witness :
    3 ≤ (⟨0, 0, 4, some "a.bc".toList⟩ : MatchData).g2len ∧
      0 + 3 ≤ (⟨0, 0, 4, some "a.bc".toList⟩ : MatchData).g2start +
        (⟨0, 0, 4, some "a.bc".toList⟩ : MatchData).g2len ∧
      (⟨0, 0, 4, some "a.bc".toList⟩ : MatchData).g2start +
        (⟨0, 0, 4, some "a.bc".toList⟩ : MatchData).g2len ≤ "a.bc".toList.length :=
  (claim10_termination (fun _ => false) "a.bc".toList).1 0 _ (by decide)

/-- C4: every emitted candidate's `(uri, to)` is obtained from the resolved
raw uri and the raw end offset by exactly the spec's two ordered trimming
steps; on `"(see http://foo.test)"` both parentheses are excluded from the
url, while on `"(http://foo.test/a(b))"` the trailing `)` is not stripped
because the match contains an opening parenthesis. -/
theorem claim4_boundary_trimming :
    (∀ (isValidDomain : List Char → Bool) (str : List Char) (c : Candidate),
      c ∈ iterateUris isValidDomain str →
      ∃ i m u, matchAt str i = some m ∧
        (u = (str.drop m.g2start).take m.g2len ∨
          u = httpsScheme ++ (str.drop m.g2start).take m.g2len) ∧
        (c.uri, c.toPos) = specBoundaryTrim u (c.fromPos + m.g2len + 1)) ∧
    iterateUris (fun _ => false) "(see http://foo.test)".toList =
      [⟨5, 21, "http://foo.test".toList⟩] ∧
    iterateUris (fun _ => false) "(http://foo.test/a(b))".toList =
      [⟨1, 23, "http://foo.test/a(b))".toList⟩] := by
  refine ⟨?_, by decide, by decide⟩
  intro v s c hc
  obtain ⟨i, m, hi, hm, hrest⟩ := scanAux_mem _ _ c hc
  rcases hrest with ⟨-, rfl⟩ | ⟨-, d, -, -, rfl⟩
  · exact ⟨i, m, _, hm, Or.inl rfl, mkCand_trim s m _⟩
  · exact ⟨i, m, _, hm, Or.inr rfl, mkCand_trim s m _⟩

/-- Witness for C4's universal part at a concrete input. -/
theorem claim4_witness :
    ∃ i m u, matchAt "(see http://foo.test)".toList i = some m ∧
      (u = ("(see http://foo.test)".toList.drop m.g2start).take m.g2len ∨
        u = httpsScheme ++ ("(see http://foo.test)".toList.drop m.g2start).take m.g2len) ∧
      ((⟨5, 21, "http://foo.test".toList⟩ : Candidate).uri,
        (⟨5, 21, "http://foo.test".toList⟩ : Candidate).toPos) =
        specBoundaryTrim u
          ((⟨5, 21, "http://foo.test".toList⟩ : Candidate).fromPos + m.g2len + 1) :=
  claim4_boundary_trimming.1 (fun _ => false) "(see http://foo.test)".toList _ (by decide)

/-- C5 (counterexample): on `"see httpx.com now"` the scheme alternative
fails and the bare-domain alternative matches `httpx.com`, yet the emitted
url is the matched text verbatim, not `https://httpx.com` (and no validity
check is consulted: the predicate here rejects every domain). -/
theorem claim5_counterexample :
    matchSchemeAlt ("see httpx.com now".toList.drop 4) = none ∧
    matchDomainAlt ("see httpx.com now".toList.drop 4) = some (9, 9) ∧
    iterateUris (fun _ => false) "see httpx.com now".toList =
      [⟨4, 14, "httpx.com".toList⟩] ∧
    "httpx.com".toList ≠ httpsScheme ++ "httpx.com".toList := by decide

/-- C5 (amended): the discriminator is whether the matched text starts with
the four characters `http` (case-sensitively), not which alternative matched:
such candidates pass through verbatim with no domain-validity check, and all
other candidates are the matched text prefixed with `https://` and appear
only when the domain capture passes the validity predicate.  The
scheme-prefixed pass-through example behaves as stated. -/
theorem claim5_amended_uri_resolution :
    (∀ (isValidDomain : List Char → Bool) (str : List Char) (c : Candidate),
      c ∈ iterateUris isValidDomain str →
      ∃ i m, matchAt str i = some m ∧
        ((startsWithHttp ((str.drop m.g2start).take m.g2len) = true ∧
            c = mkCand str m ((str.drop m.g2start).take m.g2len)) ∨
         (startsWithHttp ((str.drop m.g2start).take m.g2len) = false ∧
            ∃ d, m.domain = some d ∧ isValidDomain d = true ∧
              c = mkCand str m (httpsScheme ++ (str.drop m.g2start).take m.g2len)))) ∧
    iterateUris (fun _ => false) "go to http://foo.test/path now".toList =
      [⟨6, 27, "http://foo.test/path".toList⟩] := by
  refine ⟨?_, by decide⟩
  intro v s c hc
  obtain ⟨i, m, hi, hm, hrest⟩ := scanAux_mem _ _ c hc
  exact ⟨i, m, hm, hrest⟩

/-- Witness for C5's amended theorem at a concrete input. -/
theorem claim5_witness :
    ∃ i m, matchAt "see httpx.com now".toList i = some m ∧
      ((startsWithHttp (("see httpx.com now".toList.drop m.g2start).take m.g2len) = true ∧
          (⟨4, 14, "httpx.com".toList⟩ : Candidate) =
            mkCand "see httpx.com now".toList m
              (("see httpx.com now".toList.drop m.g2start).take m.g2len)) ∨
       (startsWithHttp (("see httpx.com now".toList.drop m.g2start).take m.g2len) = false ∧
          ∃ d, m.domain = some d ∧ (fun _ => false : List Char → Bool) d = true ∧
            (⟨4, 14, "httpx.com".toList⟩ : Candidate) =
              mkCand "see httpx.com now".toList m
                (httpsScheme ++ ("see httpx.com now".toList.drop m.g2start).take m.g2len))) :=
  claim5_amended_uri_resolution.1 (fun _ => false) "see httpx.com now".toList _ (by decide)

/-- C6: a bare-domain match (matched text not starting with `http`) whose
domain capture fails the validity predicate produces no candidate and the
scan simply continues from the end of that match; valid bare domains are
accepted and prefixed, and later candidates after a skipped token are still
emitted. -/
theorem claim6_invalid_domain_skip :
    (∀ (isValidDomain : List Char → Bool) (str : List Char) (m : MatchData) (d : List Char),
      findMatchFrom str 0 = some m →
      startsWithHttp ((str.drop m.g2start).take m.g2len) = false →
      m.domain = some d → isValidDomain d = false →
      iterateUris isValidDomain str =
        scanAux str isValidDomain str.length (m.g2start + m.g2len)) ∧
    iterateUris (fun d => d == "example.com".toList) "visit example.com now".toList =
      [⟨6, 18, "https://example.com".toList⟩] ∧
    iterateUris (fun _ => false) "visit example.com now".toList = [] ∧
    iterateUris (fun _ => false) "a.bc see http://x.yz".toList =
      [⟨9, 21, "http://x.yz".toList⟩] := by
  refine ⟨?_, by decide, by decide, by decide⟩
  intro v s m d hfm hsw hd hv
  show scanAux s v (s.length + 1) 0 = scanAux s v s.length (m.g2start + m.g2len)
  rw [show scanAux s v (s.length + 1) 0 =
      (match findMatchFrom s 0 with
       | none => []
       | some m =>
         if startsWithHttp ((s.drop m.g2start).take m.g2len) then
           mkCand s m ((s.drop m.g2start).take m.g2len) ::
             scanAux s v s.length (m.g2start + m.g2len)
         else
           match m.domain with
           | some d =>
             if v d then
               mkCand s m (httpsScheme ++ (s.drop m.g2start).take m.g2len) ::
                 scanAux s v s.length (m.g2start + m.g2len)
             else scanAux s v s.length (m.g2start + m.g2len)
           | none => scanAux s v s.length (m.g2start + m.g2len)) from rfl]
  rw [hfm]
  dsimp only
  rw [hsw, hd]
  dsimp only
  rw [hv]
  simp only [Bool.false_eq_true, if_false]

/-- Witness for C6's universal part at a concrete input. -/
theorem claim6_witness :
    iterateUris (fun _ => false) "a.bc x".toList =
      scanAux "a.bc x".toList (fun _ => false) "a.bc x".toList.length
        ((⟨0, 0, 4, some "a.bc".toList⟩ : MatchData).g2start +
          (⟨0, 0, 4, some "a.bc".toList⟩ : MatchData).g2len) :=
  claim6_invalid_domain_skip.1 (fun _ => false) "a.bc x".toList
    ⟨0, 0, 4, some "a.bc".toList⟩ "a.bc".toList (by decide) (by decide) rfl rfl

/-- C9: on first attachment, the decoration set consists of exactly one
`autolink` decoration per candidate span of each paragraph-type block, at the
block's position plus the span's block-relative offsets, and nothing else. -/
theorem claim9_init_decorations :
    ∀ (isValidDomain : List Char → Bool) (doc : List Block) (d : Decoration),
      d ∈ initDecorations isValidDomain doc ↔
        ∃ b ∈ doc, b.typeName = "paragraph" ∧
          ∃ c ∈ iterateUris isValidDomain b.textContent,
            d = ⟨b.pos + c.fromPos, b.pos + c.toPos, "autolink"⟩ := by
  intro v doc d
  simp only [initDecorations, getDecorations, List.mem_flatMap, List.mem_filter,
    List.mem_map, beq_iff_eq]
  constructor
  · rintro ⟨b, ⟨hb, hbt⟩, c, hc, rfl⟩
    exact ⟨b, hb, hbt, c, hc, rfl⟩
  · rintro ⟨b, hb, hbt, c, hc, rfl⟩
    exact ⟨b, ⟨hb, hbt⟩, c, hc, rfl⟩

/-- C2 (counterexample): a transaction that changes the document without
altering its text content (a paragraph re-typed as a heading, with identical
characters) triggers a full rebuild — which here drops the existing
decoration — instead of the remap that the claim prescribes, which would have
kept it. -/
theorem claim2_counterexample :
    docTextContent [Block.mk "heading" 0 "see http://a.bc".toList] =
      docTextContent [Block.mk "paragraph" 0 "see http://a.bc".toList] ∧
    initDecorations (fun _ => false) [Block.mk "paragraph" 0 "see http://a.bc".toList] =
      [⟨4, 16, "autolink"⟩] ∧
    applyTransaction (fun _ => false)
        (Transaction.mk true [Block.mk "heading" 0 "see http://a.bc".toList] some)
        [⟨4, 16, "autolink"⟩] = [] ∧
    mapDecorations some [⟨4, 16, "autolink"⟩] = [⟨4, 16, "autolink"⟩] ∧
    ([] : List Decoration) ≠ [(⟨4, 16, "autolink"⟩ : Decoration)] := by decide

/-- C2 (amended): the synchronizer branches on `transaction.docChanged` —
whether the document changed at all — not on whether text content changed:
every document-altering transaction (including text-preserving structural or
formatting changes) rebuilds the decoration set from the new document,
discarding the previous set; only transactions that leave the document
unchanged take the remap path, which translates each decoration's `from`/`to`
through the mapping, keeps `styleClass`, and drops deleted decorations. -/
theorem claim2_amended_apply :
    ∀ (isValidDomain : List Char → Bool) (tr : Transaction) (ds : List Decoration),
      (tr.docChanged = true →
        applyTransaction isValidDomain tr ds = getDecorations isValidDomain tr.doc ∧
        ∀ ds2, applyTransaction isValidDomain tr ds =
          applyTransaction isValidDomain tr ds2) ∧
      (tr.docChanged = false → ∀ d2 : Decoration,
        d2 ∈ applyTransaction isValidDomain tr ds ↔
          ∃ d ∈ ds, tr.mapping d.fromPos = some d2.fromPos ∧
            tr.mapping d.toPos = some d2.toPos ∧ d2.styleClass = d.styleClass) := by
  intro v tr ds
  constructor
  · intro hch
    unfold applyTransaction
    rw [if_pos hch]
    exact ⟨rfl, fun ds2 => by rw [if_pos hch]⟩
  · intro hch d2
    unfold applyTransaction
    rw [if_neg (by simp [hch])]
    unfold mapDecorations
    rw [List.mem_filterMap]
    constructor
    · rintro ⟨d, hd, hf⟩
      split at hf
      case _ a b ha hb =>
        obtain rfl : (⟨a, b, d.styleClass⟩ : Decoration) = d2 := by injection hf
        exact ⟨d, hd, ha, hb, rfl⟩
      case _ => exact absurd hf (by simp)
    · rintro ⟨d, hd, hf, ht, hs⟩
      refine ⟨d, hd, ?_⟩
      rw [hf, ht, ← hs]

/-- Witness for C2's amended theorem at a concrete transaction. -/
theorem claim2_witness :
    applyTransaction (fun _ => false) (Transaction.mk true [] some) [] =
      getDecorations (fun _ => false) [] :=
  ((claim2_amended_apply (fun _ => false) (Transaction.mk true [] some) []).1 rfl).1
